import Mathlib

/-!
Verification of the frequent-itemset / association-rule engine of this
repository (market-basket notebook, `src/unnamed/part_000`).

The notebook delegates the mining step to a library call
(`apriori(df_transactions, min_support=0.001, use_colnames=True)`) and the
rule step to `association_rules(frequent_itemsets, metric="confidence",
min_threshold=0.1)`; the bodies of those two routines are not part of the
repository sources, so they are modelled here from the specification's
component design (level-wise mining with candidate join, anti-monotone
pruning and per-level support counting; rule generation over every
non-empty proper antecedent of each frequent itemset of size ≥ 2).
Support values are rationals; items are opaque comparable tokens
represented by naturals.
-/

/-- An opaque, comparable, hashable token (a product identifier). -/
abbrev Item := Nat

/-- A transaction: a set of unique items, order irrelevant. -/
abbrev Transaction := Finset Item

/-- An ordered collection of transactions; `N` = list length. -/
abbrev TransactionDataset := List Transaction

/-- Modelled from the spec: `support_count` of an itemset — the number of
transactions containing it as a subset (a transaction "contains" a candidate
iff the candidate is a subset of the transaction's item set). -/
def supportCount (ds : TransactionDataset) (I : Finset Item) : Nat :=
  ds.countP (fun t => decide (I ⊆ t))

/-- Modelled from the spec: `support` = support_count / N, a ratio in [0,1]. -/
def support (ds : TransactionDataset) (I : Finset Item) : ℚ :=
  (supportCount ds I : ℚ) / (ds.length : ℚ)

/-- The derived universe of distinct items appearing in any transaction. -/
def itemUniverse (ds : TransactionDataset) : Finset Item :=
  ds.foldr (fun t acc => t ∪ acc) ∅

/-- The largest transaction size in the dataset (mining levels stop there). -/
def maxTransactionSize (ds : TransactionDataset) : Nat :=
  (ds.map Finset.card).foldr max 0

/-- Error raised by the miner on an out-of-range support threshold
(`InvalidThresholdError` of the spec's error taxonomy). -/
inductive MiningError where
  | invalidThreshold
deriving DecidableEq

/-- The elements of a finite set of items in ascending order (the column
order of the one-hot encoding), computed as a filter of an initial range. -/
def finsetAscList (s : Finset Item) : List Item :=
  (List.range (s.sup id + 1)).filter (fun a => decide (a ∈ s))

/-- Modelled from the spec: level-1 frequent itemsets — support computed for
every singleton item present in any transaction, retaining those with
support ≥ min_support. -/
def levelOne (ds : TransactionDataset) (minSupport : ℚ) : List (Finset Item) :=
  ((finsetAscList (itemUniverse ds)).map (fun a => ({a} : Finset Item))).filter
    (fun I => decide (minSupport ≤ support ds I))

/-- Modelled from the spec: candidate generation at level k — join pairs of
frequent (k-1)-itemsets sharing exactly k-2 items (equivalently: whose union
has size k), deduplicating candidates. -/
def candidateJoin (prev : List (Finset Item)) (k : Nat) : List (Finset Item) :=
  (((prev.product prev).map (fun p => p.1 ∪ p.2)).filter
    (fun c => decide (c.card = k))).dedup

/-- Modelled from the spec: pruning — discard a candidate immediately if any
of its (k-1)-subsets is not in the previous frequent level. -/
def pruneCandidates (prev : List (Finset Item)) (cands : List (Finset Item)) :
    List (Finset Item) :=
  cands.filter (fun c => decide (∀ a ∈ c, c.erase a ∈ prev))

/-- Modelled from the spec: the level-wise loop for levels k ≥ 2 — generate
candidates from the previous level, prune, count support and retain those
≥ min_support; repeat until a level is empty or k exceeds the largest
transaction size (enforced by the `fuel` bound). -/
def aprioriLevels (ds : TransactionDataset) (minSupport : ℚ) :
    Nat → Nat → List (Finset Item) → List (List (Finset Item))
  | 0, _, _ => []
  | fuel + 1, k, prev =>
    let lk := (pruneCandidates prev (candidateJoin prev k)).filter
      (fun c => decide (minSupport ≤ support ds c))
    if lk.isEmpty then []
    else lk :: aprioriLevels ds minSupport fuel (k + 1) lk

/-- The mined levels: L1 followed by the levels k ≥ 2; empty when L1 is
empty (level-wise mining never starts on an empty first level). -/
def minedLevels (ds : TransactionDataset) (minSupport : ℚ) :
    List (List (Finset Item)) :=
  if (levelOne ds minSupport).isEmpty then []
  else levelOne ds minSupport ::
    aprioriLevels ds minSupport (maxTransactionSize ds) 2 (levelOne ds minSupport)

/-- The union of all mined levels, as an ordered list of (itemset, support)
pairs: levels concatenated in ascending size order, each level in candidate
generation order (as in the notebook's recorded output table). -/
def aprioriCollection (ds : TransactionDataset) (minSupport : ℚ) :
    List (Finset Item × ℚ) :=
  (minedLevels ds minSupport).flatten.map (fun I => (I, support ds I))

/-- Modelled from the spec: `mine(dataset, min_support)`.  min_support ≤ 0 is
invalid (`InvalidThresholdError`); otherwise levels L1, L2, … are mined
level-wise and the result is the union of all levels as an ordered list of
(itemset, support) pairs.  An empty L1 yields an empty collection (not an
error). -/
def apriori (ds : TransactionDataset) (minSupport : ℚ) :
    Except MiningError (List (Finset Item × ℚ)) :=
  if minSupport ≤ 0 then .error .invalidThreshold
  else .ok (aprioriCollection ds minSupport)
/-- Errors of rule generation: `UnknownMetricError` for an unrecognized
metric name, `InternalConsistencyError` for a known-frequent subset whose
stored support is missing or zero. -/
inductive RuleError where
  | unknownMetric
  | internalConsistency
deriving DecidableEq

/-- An association rule: ordered pair (antecedent, consequent) carrying
support, confidence, lift, leverage and conviction.  Conviction lives in
`WithTop ℚ` since it is defined as infinite when confidence = 1. -/
structure AssociationRule where
  antecedent : Finset Item
  consequent : Finset Item
  support : ℚ
  confidence : ℚ
  lift : ℚ
  leverage : ℚ
  conviction : WithTop ℚ
deriving DecidableEq

/-- Modelled from the spec: conviction(rule) = (1 − support(C)) /
(1 − confidence(rule)), defined as infinite when confidence = 1 (the
division is guarded, never performed at confidence 1). -/
def convictionValue (suppC conf : ℚ) : WithTop ℚ :=
  if conf = 1 then ⊤ else (((1 - suppC) / (1 - conf) : ℚ) : WithTop ℚ)

/-- The stored support of an itemset in a mined collection, when present. -/
def lookupSupport (coll : List (Finset Item × ℚ)) (I : Finset Item) :
    Option ℚ :=
  (coll.find? (fun p => decide (p.1 = I))).map Prod.snd

/-- The subsets of a finite set of items, as a list: the `toFinset`s of the
sublists of its ascending element list. -/
def subsetsList (I : Finset Item) : List (Finset Item) :=
  ((finsetAscList I).sublists).map List.toFinset

/-- Modelled from the spec: the candidate (antecedent, consequent,
support(I)) triples of rule generation — for every frequent itemset I of
size ≥ 2, every non-empty proper subset A ⊂ I is an antecedent with
consequent C = I \ A. -/
def ruleCandidates (coll : List (Finset Item × ℚ)) :
    List (Finset Item × Finset Item × ℚ) :=
  (coll.filter (fun p => decide (2 ≤ p.1.card))).flatMap (fun p =>
    ((subsetsList p.1).filter (fun A => decide (A ≠ ∅ ∧ A ≠ p.1))).map
      (fun A => (A, p.1 \ A, p.2)))

/-- Modelled from the spec: build one AssociationRule from a candidate,
reading the antecedent's and consequent's supports from the collection;
support(rule) = support(I), confidence = support(I)/support(A),
lift = confidence/support(C), leverage = support(I) − support(A)·support(C),
conviction as in `convictionValue`. -/
def mkRule (coll : List (Finset Item × ℚ)) (A C : Finset Item) (suppI : ℚ) :
    AssociationRule :=
  let sA := (lookupSupport coll A).getD 0
  let sC := (lookupSupport coll C).getD 0
  let conf := suppI / sA
  { antecedent := A
    consequent := C
    support := suppI
    confidence := conf
    lift := conf / sC
    leverage := suppI - sA * sC
    conviction := convictionValue sC conf }

/-- The enumerated metric names accepted by rule generation. -/
def validMetrics : List String :=
  ["support", "confidence", "lift", "leverage", "conviction"]

/-- The value of the selected metric on a rule, compared in `WithTop ℚ` so
that an infinite conviction exceeds every finite threshold. -/
def metricValue (metric : String) (r : AssociationRule) : WithTop ℚ :=
  if metric = "support" then (r.support : WithTop ℚ)
  else if metric = "confidence" then (r.confidence : WithTop ℚ)
  else if metric = "lift" then (r.lift : WithTop ℚ)
  else if metric = "leverage" then (r.leverage : WithTop ℚ)
  else r.conviction

/-- Modelled from the spec: the internal-consistency guard of the Metrics
Calculator — the antecedent's and consequent's stored supports must exist
and be non-zero (division by the support of a known-frequent subset). -/
def candidateSupportsOk (coll : List (Finset Item × ℚ))
    (c : Finset Item × Finset Item × ℚ) : Bool :=
  decide ((lookupSupport coll c.1).getD 0 ≠ 0 ∧
    (lookupSupport coll c.2.1).getD 0 ≠ 0)

/-- Modelled from the spec: `generate(frequentItemsets, metric,
min_threshold)` — an unrecognized metric fails with `UnknownMetricError`
(no partial rules); a missing or zero subset support fails with
`InternalConsistencyError`; otherwise every candidate rule is built and
retained iff its selected metric value is ≥ min_threshold. -/
def association_rules (coll : List (Finset Item × ℚ)) (metric : String)
    (minThreshold : ℚ) : Except RuleError (List AssociationRule) :=
  if metric ∈ validMetrics then
    if (ruleCandidates coll).all (candidateSupportsOk coll) then
      .ok ((((ruleCandidates coll).map
          (fun c => mkRule coll c.1 c.2.1 c.2.2)).filter
        (fun r => decide ((minThreshold : WithTop ℚ) ≤ metricValue metric r))))
    else .error .internalConsistency
  else .error .unknownMetric

/-- A raw CSV row of the groceries dataset: Member_number, Date (raw
string), itemDescription. -/
structure RawRow where
  member : Nat
  date : String
  item : Nat
deriving DecidableEq

/-- Modelled from the spec: `pd.to_datetime(data['Date'], errors='coerce')`
(pandas, not in src) — each row's raw date string is parsed; an unparseable
date is coerced to NaT, represented as `none`. -/
def toDatetimeCoerce (parseDate : String → Option Nat) (rows : List RawRow) :
    List (Nat × Option Nat × Nat) :=
  rows.map (fun r => (r.member, parseDate r.date, r.item))

/-- Modelled from the spec: the distinct (Member_number, Date) group keys of
pandas `groupby` (not in src), which by default drops rows whose group key
contains NaT (`none`). -/
def groupKeys (rows : List (Nat × Option Nat × Nat)) : List (Nat × Nat) :=
  (rows.filterMap (fun r => r.2.1.map (fun d => (r.1, d)))).dedup

/-- Modelled from the spec: the preprocessing pipeline
`groupby(['Member_number', 'Date'])['itemDescription'].apply(list)` (pandas,
not in src) — one item list per (member, date) group key. -/
def buildTransactions (parseDate : String → Option Nat) (rows : List RawRow) :
    List (List Nat) :=
  (groupKeys (toDatetimeCoerce parseDate rows)).map (fun k =>
    (toDatetimeCoerce parseDate rows).filterMap (fun r =>
      if r.1 = k.1 ∧ r.2.1 = some k.2 then some r.2.2 else none))

/-- Equality of `Except` results is decidable componentwise. -/
instance {ε α : Type} [DecidableEq ε] [DecidableEq α] :
    DecidableEq (Except ε α) := fun a b =>
  match a, b with
  | .error x, .error y =>
    if h : x = y then .isTrue (by rw [h])
    else .isFalse (fun hc => h (Except.error.inj hc))
  | .error _, .ok _ => .isFalse (fun hc => Except.noConfusion hc)
  | .ok _, .error _ => .isFalse (fun hc => Except.noConfusion hc)
  | .ok x, .ok y =>
    if h : x = y then .isTrue (by rw [h])
    else .isFalse (fun hc => h (Except.ok.inj hc))

/-- The output ordering asserted by the spec for the mined collection: each
adjacent pair of entries either grows strictly in itemset size, or has equal
size with non-increasing support. -/
def specClaimedOrder (L : List (Finset Item × ℚ)) : Prop :=
  List.Chain' (fun e1 e2 => e1.1.card < e2.1.card ∨
    (e1.1.card = e2.1.card ∧ e2.2 ≤ e1.2)) L


section SupportLemmas

theorem supportCount_le_length (ds : TransactionDataset) (I : Finset Item) :
    supportCount ds I ≤ ds.length :=
  List.countP_le_length _

theorem supportCount_mono (ds : TransactionDataset) {S I : Finset Item}
    (h : S ⊆ I) : supportCount ds I ≤ supportCount ds S := by
  unfold supportCount
  induction ds with
  | nil => simp
  | cons t ts ih =>
    rw [List.countP_cons, List.countP_cons]
    have hcase : (if decide (I ⊆ t) = true then 1 else 0) ≤
        (if decide (S ⊆ t) = true then 1 else 0) := by
      by_cases hIt : I ⊆ t
      · simp [hIt, h.trans hIt]
      · simp [hIt]
    omega

theorem support_nonneg (ds : TransactionDataset) (I : Finset Item) :
    0 ≤ support ds I := by
  unfold support
  positivity

theorem support_le_one (ds : TransactionDataset) (I : Finset Item) :
    support ds I ≤ 1 := by
  unfold support
  rcases Nat.eq_zero_or_pos ds.length with h | h
  · simp [h]
  · rw [div_le_one (by exact_mod_cast h)]
    exact_mod_cast supportCount_le_length ds I

theorem support_mono (ds : TransactionDataset) {S I : Finset Item}
    (h : S ⊆ I) : support ds I ≤ support ds S := by
  unfold support
  rcases Nat.eq_zero_or_pos ds.length with h0 | h0
  · simp [h0]
  · have hlen : (0 : ℚ) < ds.length := by exact_mod_cast h0
    have hc : (supportCount ds I : ℚ) ≤ supportCount ds S := by
      exact_mod_cast supportCount_mono ds h
    exact (div_le_div_iff_of_pos_right hlen).mpr hc

/-- A positive support forces a containing transaction, whose size bounds the
itemset's size. -/
theorem card_le_maxTransactionSize {ds : TransactionDataset} {I : Finset Item}
    (h : 0 < supportCount ds I) : I.card ≤ maxTransactionSize ds := by
  unfold supportCount at h
  rw [List.countP_pos_iff] at h
  obtain ⟨t, ht, hsub⟩ := h
  rw [decide_eq_true_eq] at hsub
  have h1 : I.card ≤ t.card := Finset.card_le_card hsub
  have h2 : t.card ≤ maxTransactionSize ds := by
    unfold maxTransactionSize
    induction ds with
    | nil => simp at ht
    | cons s ss ih =>
      rcases List.mem_cons.mp ht with rfl | hmem
      · simp [le_max_iff]
      · simp only [List.map_cons, List.foldr_cons, le_max_iff]
        exact Or.inr (ih hmem)
  omega

theorem support_pos_of_frequent {ds : TransactionDataset} {I : Finset Item}
    {s : ℚ} (hs : 0 < s) (h : s ≤ support ds I) : 0 < supportCount ds I := by
  rcases Nat.eq_zero_or_pos (supportCount ds I) with h0 | h0
  · exfalso
    unfold support at h
    rw [h0] at h
    simp at h
    linarith
  · exact h0

theorem mem_itemUniverse {ds : TransactionDataset} {a : Item} :
    a ∈ itemUniverse ds ↔ ∃ t ∈ ds, a ∈ t := by
  unfold itemUniverse
  induction ds with
  | nil => simp
  | cons t ts ih => simp [ih]

theorem mem_finsetAscList {s : Finset Item} {a : Item} :
    a ∈ finsetAscList s ↔ a ∈ s := by
  unfold finsetAscList
  rw [List.mem_filter, decide_eq_true_eq]
  constructor
  · exact And.right
  · intro ha
    refine ⟨List.mem_range.mpr ?_, ha⟩
    exact Nat.lt_succ_of_le (Finset.le_sup (f := id) ha)

theorem finsetAscList_sorted (s : Finset Item) :
    (finsetAscList s).Sorted (· ≤ ·) := by
  apply List.Pairwise.filter
  exact (List.pairwise_lt_range _).imp le_of_lt

theorem finsetAscList_nodup (s : Finset Item) :
    (finsetAscList s).Nodup := by
  apply List.Nodup.filter
  exact List.nodup_range _

theorem finsetAscList_toFinset (s : Finset Item) :
    (finsetAscList s).toFinset = s := by
  ext a
  rw [List.mem_toFinset, mem_finsetAscList]

end SupportLemmas

section MinerCharacterization

variable {ds : TransactionDataset} {s : ℚ}

theorem mem_levelOne (hs : 0 < s) {I : Finset Item} :
    I ∈ levelOne ds s ↔ I.card = 1 ∧ s ≤ support ds I := by
  unfold levelOne
  rw [List.mem_filter, decide_eq_true_eq]
  constructor
  · rintro ⟨hmem, hsup⟩
    rw [List.mem_map] at hmem
    obtain ⟨a, _, rfl⟩ := hmem
    exact ⟨Finset.card_singleton a, hsup⟩
  · rintro ⟨hcard, hsup⟩
    obtain ⟨a, rfl⟩ := Finset.card_eq_one.mp hcard
    refine ⟨List.mem_map.mpr ⟨a, ?_, rfl⟩, hsup⟩
    rw [mem_finsetAscList, mem_itemUniverse]
    have hpos := support_pos_of_frequent hs hsup
    rw [supportCount, List.countP_pos_iff] at hpos
    obtain ⟨t, ht, hsub⟩ := hpos
    rw [decide_eq_true_eq, Finset.singleton_subset_iff] at hsub
    exact ⟨t, ht, hsub⟩

/-- Soundness and completeness of one mining level: a size-k itemset appears
among the counted survivors of candidate generation and pruning iff it has
size k and is frequent, provided the previous level was exactly the frequent
(k-1)-itemsets. -/
theorem mem_levelStep (hk : 2 ≤ k)
    {prev : List (Finset Item)}
    (hprev : ∀ J, J ∈ prev ↔ J.card = k - 1 ∧ s ≤ support ds J)
    {I : Finset Item} :
    I ∈ (pruneCandidates prev (candidateJoin prev k)).filter
        (fun c => decide (s ≤ support ds c)) ↔
      I.card = k ∧ s ≤ support ds I := by
  rw [List.mem_filter, decide_eq_true_eq]
  unfold pruneCandidates
  rw [List.mem_filter, decide_eq_true_eq]
  unfold candidateJoin
  rw [List.mem_dedup, List.mem_filter, decide_eq_true_eq]
  constructor
  · rintro ⟨⟨⟨-, hcard⟩, -⟩, hsup⟩
    exact ⟨hcard, hsup⟩
  · rintro ⟨hcard, hsup⟩
    refine ⟨⟨⟨?_, hcard⟩, ?_⟩, hsup⟩
    · have h2 : 1 < I.card := by omega
      obtain ⟨a, ha, b, hb, hab⟩ := Finset.one_lt_card.mp h2
      refine List.mem_map.mpr ⟨(I.erase a, I.erase b), List.mem_product.mpr ⟨?_, ?_⟩, ?_⟩
      · rw [hprev]
        refine ⟨?_, le_trans hsup (support_mono ds (Finset.erase_subset _ _))⟩
        rw [Finset.card_erase_of_mem ha]
        omega
      · rw [hprev]
        refine ⟨?_, le_trans hsup (support_mono ds (Finset.erase_subset _ _))⟩
        rw [Finset.card_erase_of_mem hb]
        omega
      · ext x
        simp only [Finset.mem_union, Finset.mem_erase]
        constructor
        · rintro (⟨-, h⟩ | ⟨-, h⟩) <;> exact h
        · intro hxI
          by_cases hxa : x = a
          · exact Or.inr ⟨by rw [hxa]; exact hab, hxI⟩
          · exact Or.inl ⟨hxa, hxI⟩
    · intro x hx
      rw [hprev]
      refine ⟨?_, le_trans hsup (support_mono ds (Finset.erase_subset _ _))⟩
      rw [Finset.card_erase_of_mem hx]
      omega

/-- The levels k ≥ 2 of the miner contain exactly the frequent itemsets of
size ≥ k, provided the previous level was exactly the frequent
(k-1)-itemsets and enough fuel remains to reach the largest transaction. -/
theorem aprioriLevels_mem (hs : 0 < s) :
    ∀ (fuel k : Nat) (prev : List (Finset Item)), 2 ≤ k →
      (∀ J, J ∈ prev ↔ J.card = k - 1 ∧ s ≤ support ds J) →
      maxTransactionSize ds < fuel + (k - 1) →
      ∀ I : Finset Item,
        I ∈ (aprioriLevels ds s fuel k prev).flatten ↔
          k ≤ I.card ∧ s ≤ support ds I := by
  intro fuel
  induction fuel with
  | zero =>
    intro k prev hk hprev hfuel I
    simp only [aprioriLevels, List.flatten_nil, List.not_mem_nil, false_iff]
    rintro ⟨hcard, hsup⟩
    have h1 := card_le_maxTransactionSize (support_pos_of_frequent hs hsup)
    omega
  | succ fuel ih =>
    intro k prev hk hprev hfuel I
    simp only [aprioriLevels]
    set lk := (pruneCandidates prev (candidateJoin prev k)).filter
      (fun c => decide (s ≤ support ds c)) with hlk
    have hstep : ∀ J : Finset Item, J ∈ lk ↔ J.card = k ∧ s ≤ support ds J :=
      fun J => mem_levelStep hk hprev
    by_cases hempty : lk.isEmpty = true
    · rw [if_pos hempty]
      simp only [List.flatten_nil, List.not_mem_nil, false_iff]
      rintro ⟨hcard, hsup⟩
      obtain ⟨S, hS, hScard⟩ := Finset.exists_subset_card_eq hcard
      have hSmem : S ∈ lk :=
        (hstep S).mpr ⟨hScard, le_trans hsup (support_mono ds hS)⟩
      rw [List.isEmpty_iff] at hempty
      rw [hempty] at hSmem
      exact List.not_mem_nil _ hSmem
    · rw [if_neg hempty]
      rw [List.flatten_cons, List.mem_append, hstep I,
        ih (k + 1) lk (by omega) (fun J => by simpa using hstep J) (by omega)]
      constructor
      · rintro (⟨hc, hsup⟩ | ⟨hc, hsup⟩) <;> exact ⟨by omega, hsup⟩
      · rintro ⟨hc, hsup⟩
        rcases Nat.eq_or_lt_of_le hc with h | h
        · exact Or.inl ⟨h.symm, hsup⟩
        · exact Or.inr ⟨by omega, hsup⟩

/-- The flattened mined levels are exactly the non-empty frequent itemsets. -/
theorem mem_minedLevels_flatten (hs : 0 < s) {I : Finset Item} :
    I ∈ (minedLevels ds s).flatten ↔ I.Nonempty ∧ s ≤ support ds I := by
  unfold minedLevels
  by_cases hempty : (levelOne ds s).isEmpty = true
  · rw [if_pos hempty]
    simp only [List.flatten_nil, List.not_mem_nil, false_iff]
    rintro ⟨hne, hsup⟩
    obtain ⟨a, ha⟩ := hne
    have hmem : ({a} : Finset Item) ∈ levelOne ds s := by
      rw [mem_levelOne hs]
      exact ⟨Finset.card_singleton a,
        le_trans hsup (support_mono ds (Finset.singleton_subset_iff.mpr ha))⟩
    rw [List.isEmpty_iff] at hempty
    rw [hempty] at hmem
    exact List.not_mem_nil _ hmem
  · rw [if_neg hempty]
    rw [List.flatten_cons, List.mem_append, mem_levelOne hs,
      aprioriLevels_mem hs (maxTransactionSize ds) 2 (levelOne ds s) (le_refl 2)
        (fun J => by simpa using mem_levelOne hs) (by omega)]
    constructor
    · rintro (⟨hc, hsup⟩ | ⟨hc, hsup⟩) <;>
        exact ⟨Finset.card_pos.mp (by omega), hsup⟩
    · rintro ⟨hne, hsup⟩
      have hc := Finset.card_pos.mpr hne
      rcases Nat.lt_or_ge I.card 2 with h2 | h2
      · exact Or.inl ⟨by omega, hsup⟩
      · exact Or.inr ⟨h2, hsup⟩

theorem apriori_pos_of_ok {L : List (Finset Item × ℚ)}
    (h : apriori ds s = .ok L) : 0 < s := by
  unfold apriori at h
  by_cases hs : s ≤ 0
  · rw [if_pos hs] at h
    exact absurd h (by simp)
  · exact not_le.mp hs

theorem apriori_ok_eq {L : List (Finset Item × ℚ)}
    (h : apriori ds s = .ok L) : L = aprioriCollection ds s := by
  have hs := apriori_pos_of_ok h
  unfold apriori at h
  rw [if_neg (not_le.mpr hs)] at h
  exact (Except.ok.inj h).symm

/-- Characterization of the miner's output: an (itemset, value) pair belongs
to a successfully mined collection iff the itemset is non-empty and frequent
and the value is its support. -/
theorem apriori_mem {L : List (Finset Item × ℚ)}
    (h : apriori ds s = .ok L) {I : Finset Item} {q : ℚ} :
    (I, q) ∈ L ↔ I.Nonempty ∧ s ≤ support ds I ∧ q = support ds I := by
  have hs := apriori_pos_of_ok h
  rw [apriori_ok_eq h]
  unfold aprioriCollection
  rw [List.mem_map]
  constructor
  · rintro ⟨J, hJ, hEq⟩
    obtain ⟨rfl, rfl⟩ := Prod.mk.inj hEq
    have := (mem_minedLevels_flatten hs).mp hJ
    exact ⟨this.1, this.2, rfl⟩
  · rintro ⟨hne, hsup, rfl⟩
    exact ⟨I, (mem_minedLevels_flatten hs).mpr ⟨hne, hsup⟩, rfl⟩

end MinerCharacterization

section LevelOrdering

variable {ds : TransactionDataset} {s : ℚ}

theorem mem_levelOne_card {I : Finset Item} (h : I ∈ levelOne ds s) :
    I.card = 1 := by
  unfold levelOne at h
  rw [List.mem_filter] at h
  obtain ⟨a, -, rfl⟩ := List.mem_map.mp h.1
  exact Finset.card_singleton a

theorem mem_levelK_card {prev : List (Finset Item)} {k : Nat} {I : Finset Item}
    (h : I ∈ (pruneCandidates prev (candidateJoin prev k)).filter
        (fun c => decide (s ≤ support ds c))) : I.card = k := by
  rw [List.mem_filter] at h
  have h1 := h.1
  unfold pruneCandidates at h1
  rw [List.mem_filter] at h1
  have h2 := h1.1
  unfold candidateJoin at h2
  rw [List.mem_dedup, List.mem_filter, decide_eq_true_eq] at h2
  exact h2.2

theorem mem_aprioriLevels_card_ge :
    ∀ (fuel k : Nat) (prev : List (Finset Item)) {I : Finset Item},
      I ∈ (aprioriLevels ds s fuel k prev).flatten → k ≤ I.card := by
  intro fuel
  induction fuel with
  | zero =>
    intro k prev I h
    simp only [aprioriLevels, List.flatten_nil, List.not_mem_nil] at h
  | succ fuel ih =>
    intro k prev I h
    simp only [aprioriLevels] at h
    by_cases hempty : ((pruneCandidates prev (candidateJoin prev k)).filter
        (fun c => decide (s ≤ support ds c))).isEmpty = true
    · rw [if_pos hempty] at h
      simp at h
    · rw [if_neg hempty, List.flatten_cons, List.mem_append] at h
      rcases h with h | h
      · exact le_of_eq (mem_levelK_card h).symm
      · have := ih (k + 1) _ h
        omega

theorem aprioriLevels_pairwise_card :
    ∀ (fuel k : Nat) (prev : List (Finset Item)),
      ((aprioriLevels ds s fuel k prev).flatten).Pairwise
        (fun I J => I.card ≤ J.card) := by
  intro fuel
  induction fuel with
  | zero =>
    intro k prev
    simp [aprioriLevels]
  | succ fuel ih =>
    intro k prev
    simp only [aprioriLevels]
    by_cases hempty : ((pruneCandidates prev (candidateJoin prev k)).filter
        (fun c => decide (s ≤ support ds c))).isEmpty = true
    · rw [if_pos hempty]
      simp
    · rw [if_neg hempty, List.flatten_cons, List.pairwise_append]
      refine ⟨List.pairwise_of_forall_mem_list ?_, ih (k + 1) _, ?_⟩
      · intro a ha b hb
        rw [mem_levelK_card ha, mem_levelK_card hb]
      · intro a ha b hb
        rw [mem_levelK_card ha]
        have := mem_aprioriLevels_card_ge fuel (k + 1) _ hb
        omega

/-- The mined collection is ordered by ascending itemset size: sizes are
pairwise non-decreasing along the output list. -/
theorem aprioriCollection_pairwise_card :
    (aprioriCollection ds s).Pairwise (fun e1 e2 => e1.1.card ≤ e2.1.card) := by
  unfold aprioriCollection
  rw [List.pairwise_map]
  unfold minedLevels
  by_cases hempty : (levelOne ds s).isEmpty = true
  · rw [if_pos hempty]
    simp
  · rw [if_neg hempty, List.flatten_cons, List.pairwise_append]
    refine ⟨List.pairwise_of_forall_mem_list ?_, aprioriLevels_pairwise_card _ _ _, ?_⟩
    · intro a ha b hb
      rw [mem_levelOne_card ha, mem_levelOne_card hb]
    · intro a ha b hb
      have h1 := mem_levelOne_card ha
      have h2 := mem_aprioriLevels_card_ge (maxTransactionSize ds) 2
        (levelOne ds s) hb
      show a.card ≤ b.card
      omega

end LevelOrdering

section RuleCharacterization

theorem mem_subsetsList {I A : Finset Item} : A ∈ subsetsList I ↔ A ⊆ I := by
  unfold subsetsList
  rw [List.mem_map]
  constructor
  · rintro ⟨l, hl, rfl⟩
    rw [List.mem_sublists] at hl
    intro x hx
    rw [List.mem_toFinset] at hx
    exact mem_finsetAscList.mp (hl.subset hx)
  · intro hA
    refine ⟨finsetAscList A, ?_, finsetAscList_toFinset A⟩
    rw [List.mem_sublists]
    apply List.sublist_of_subperm_of_sorted _ (finsetAscList_sorted _)
      (finsetAscList_sorted _)
    apply List.Nodup.subperm (finsetAscList_nodup _)
    intro x hx
    rw [mem_finsetAscList] at hx ⊢
    exact hA hx

theorem mem_ruleCandidates {coll : List (Finset Item × ℚ)}
    {c : Finset Item × Finset Item × ℚ} :
    c ∈ ruleCandidates coll ↔
      ∃ I : Finset Item, (I, c.2.2) ∈ coll ∧ 2 ≤ I.card ∧
        c.1 ⊆ I ∧ c.1 ≠ ∅ ∧ c.1 ≠ I ∧ c.2.1 = I \ c.1 := by
  unfold ruleCandidates
  rw [List.mem_flatMap]
  constructor
  · rintro ⟨p, hp, hc⟩
    rw [List.mem_filter, decide_eq_true_eq] at hp
    rw [List.mem_map] at hc
    obtain ⟨A, hA, rfl⟩ := hc
    rw [List.mem_filter, decide_eq_true_eq] at hA
    refine ⟨p.1, ?_, hp.2, mem_subsetsList.mp hA.1, hA.2.1, hA.2.2, rfl⟩
    simpa using hp.1
  · rintro ⟨I, hI, hcard, hsub, hne, hproper, hC⟩
    refine ⟨(I, c.2.2), ?_, ?_⟩
    · rw [List.mem_filter, decide_eq_true_eq]
      exact ⟨hI, hcard⟩
    · rw [List.mem_map]
      refine ⟨c.1, ?_, ?_⟩
      · rw [List.mem_filter, decide_eq_true_eq]
        exact ⟨mem_subsetsList.mpr hsub, hne, hproper⟩
      · rw [← hC]

theorem lookupSupport_apriori {ds : TransactionDataset} {s : ℚ}
    {L : List (Finset Item × ℚ)} (h : apriori ds s = .ok L) {J : Finset Item}
    (hne : J.Nonempty) (hsup : s ≤ support ds J) :
    lookupSupport L J = some (support ds J) := by
  have hmem : (J, support ds J) ∈ L := (apriori_mem h).mpr ⟨hne, hsup, rfl⟩
  unfold lookupSupport
  have hsome : (L.find? (fun p => decide (p.1 = J))).isSome := by
    rw [List.find?_isSome]
    exact ⟨(J, support ds J), hmem, by simp⟩
  obtain ⟨p, hp⟩ := Option.isSome_iff_exists.mp hsome
  have hpM := List.mem_of_find?_eq_some hp
  have hpP := List.find?_some hp
  rw [decide_eq_true_eq] at hpP
  have hchar := (apriori_mem h).mp (show (p.1, p.2) ∈ L by rwa [Prod.mk.eta])
  rw [hp]
  simp only [Option.map_some']
  rw [hchar.2.2, hpP]

/-- Characterization of a successful rule-generation run: its members are
exactly the built candidate rules whose selected metric value meets the
threshold. -/
theorem association_rules_ok_mem {coll : List (Finset Item × ℚ)}
    {metric : String} {t : ℚ} {rs : List AssociationRule}
    (h : association_rules coll metric t = .ok rs) {r : AssociationRule} :
    r ∈ rs ↔
      ∃ c ∈ ruleCandidates coll, r = mkRule coll c.1 c.2.1 c.2.2 ∧
        (t : WithTop ℚ) ≤ metricValue metric r := by
  unfold association_rules at h
  by_cases hm : metric ∈ validMetrics
  · rw [if_pos hm] at h
    by_cases hall : (ruleCandidates coll).all (candidateSupportsOk coll) = true
    · rw [if_pos hall] at h
      have hrs := (Except.ok.inj h).symm
      subst hrs
      rw [List.mem_filter, List.mem_map]
      constructor
      · rintro ⟨⟨c, hc, rfl⟩, hthr⟩
        rw [decide_eq_true_eq] at hthr
        exact ⟨c, hc, rfl, hthr⟩
      · rintro ⟨c, hc, rfl, hthr⟩
        exact ⟨⟨c, hc, rfl⟩, by rwa [decide_eq_true_eq]⟩
    · rw [if_neg hall] at h
      exact absurd h (by simp)
  · rw [if_neg hm] at h
    exact absurd h (by simp)

/-- The central structural fact about every rule generated from a mined
collection: its fields are the spec's metric formulas over the true support
values of antecedent, consequent and their union. -/
theorem mem_rules_spec {ds : TransactionDataset} {s t : ℚ} {metric : String}
    {L : List (Finset Item × ℚ)} {rs : List AssociationRule}
    (hmine : apriori ds s = .ok L)
    (hrules : association_rules L metric t = .ok rs)
    {r : AssociationRule} (hr : r ∈ rs) :
    ∃ I : Finset Item,
      r.antecedent ⊆ I ∧ r.antecedent ≠ ∅ ∧ r.antecedent ≠ I ∧
      r.consequent = I \ r.antecedent ∧ 2 ≤ I.card ∧ s ≤ support ds I ∧
      r.support = support ds I ∧
      r.confidence = support ds I / support ds r.antecedent ∧
      r.lift = r.confidence / support ds r.consequent ∧
      r.leverage = support ds I -
        support ds r.antecedent * support ds r.consequent ∧
      r.conviction = convictionValue (support ds r.consequent) r.confidence := by
  have hs : 0 < s := apriori_pos_of_ok hmine
  obtain ⟨c, hc, hrEq, -⟩ := (association_rules_ok_mem hrules).mp hr
  obtain ⟨I, hIL, hcard, hsub, hne, hproper, hC⟩ := mem_ruleCandidates.mp hc
  have hIchar := (apriori_mem hmine).mp hIL
  have hIsup : s ≤ support ds I := hIchar.2.1
  have hq : c.2.2 = support ds I := hIchar.2.2
  have hAne : c.1.Nonempty := Finset.nonempty_iff_ne_empty.mpr hne
  have hAsup : s ≤ support ds c.1 := le_trans hIsup (support_mono ds hsub)
  have hCne : c.2.1.Nonempty := by
    rw [hC]
    obtain ⟨x, hxI, hxA⟩ := Finset.exists_of_ssubset (lt_of_le_of_ne hsub hproper)
    exact ⟨x, Finset.mem_sdiff.mpr ⟨hxI, hxA⟩⟩
  have hCsup : s ≤ support ds c.2.1 := by
    rw [hC]
    exact le_trans hIsup (support_mono ds (Finset.sdiff_subset))
  have hlookA := lookupSupport_apriori hmine hAne hAsup
  have hlookC := lookupSupport_apriori hmine hCne hCsup
  refine ⟨I, ?_⟩
  subst hrEq
  unfold mkRule
  simp only [hlookA, hlookC, Option.getD_some, hq]
  refine ⟨hsub, hne, hproper, hC, hcard, hIsup, ?_, ?_, ?_, ?_, ?_⟩ <;> trivial

end RuleCharacterization

section Preprocessing

theorem toDatetimeCoerce_filter (parseDate : String → Option Nat)
    (rows : List RawRow) :
    toDatetimeCoerce parseDate
        (rows.filter (fun r => (parseDate r.date).isSome)) =
      (toDatetimeCoerce parseDate rows).filter (fun c => c.2.1.isSome) := by
  unfold toDatetimeCoerce
  rw [List.filter_map]
  rfl

theorem filterMap_filter_isSome {α : Type} (l : List (Nat × Option Nat × Nat))
    (g : Nat × Option Nat × Nat → Option α)
    (hg : ∀ r, r.2.1 = none → g r = none) :
    (l.filter (fun c => c.2.1.isSome)).filterMap g = l.filterMap g := by
  induction l with
  | nil => rfl
  | cons c l ih =>
    rcases hc : c.2.1 with _ | d
    · simp [List.filter_cons, List.filterMap_cons, hc, hg c hc, ih]
    · simp only [List.filter_cons, hc, Option.isSome_some, if_true,
        List.filterMap_cons]
      cases g c <;> simp [ih]

theorem groupKeys_filter_isSome (l : List (Nat × Option Nat × Nat)) :
    groupKeys (l.filter (fun c => c.2.1.isSome)) = groupKeys l := by
  unfold groupKeys
  rw [filterMap_filter_isSome]
  intro r hr
  rw [hr]
  rfl

theorem itemsForKey_filter_isSome (l : List (Nat × Option Nat × Nat))
    (k : Nat × Nat) :
    (l.filter (fun c => c.2.1.isSome)).filterMap
        (fun r => if r.1 = k.1 ∧ r.2.1 = some k.2 then some r.2.2 else none) =
      l.filterMap
        (fun r => if r.1 = k.1 ∧ r.2.1 = some k.2 then some r.2.2 else none) := by
  apply filterMap_filter_isSome
  intro r hr
  simp [hr]

end Preprocessing

section Claims

attribute [local semireducible] Rat.inv Rat.mul Rat.add Rat.sub

/-- C1: Anti-monotonicity of the mined collection — if an itemset is in the
frequent-itemset collection mined at threshold s, then every non-empty
subset of it is also in the collection (paired with its support), and the
subset's support is at least the superset's. -/
theorem apriori_anti_monotonicity (ds : TransactionDataset) (s : ℚ)
    (L : List (Finset Item × ℚ)) (I S : Finset Item) (q : ℚ)
    (h : apriori ds s = .ok L) (hI : (I, q) ∈ L) (hS : S ⊆ I)
    (hne : S.Nonempty) :
    (S, support ds S) ∈ L ∧ support ds I ≤ support ds S := by
  have hchar := (apriori_mem h).mp hI
  have hmono := support_mono ds hS
  exact ⟨(apriori_mem h).mpr ⟨hne, le_trans hchar.2.1 hmono, rfl⟩, hmono⟩

/-- C2: Rule validity — every generated rule has disjoint antecedent and
consequent, and their union is an itemset of the mined collection it was
generated from. -/
theorem rule_validity (ds : TransactionDataset) (s t : ℚ) (mtr : String)
    (L : List (Finset Item × ℚ)) (rs : List AssociationRule)
    (r : AssociationRule) (hm : apriori ds s = .ok L)
    (hg : association_rules L mtr t = .ok rs) (hr : r ∈ rs) :
    r.antecedent ∩ r.consequent = ∅ ∧
      (r.antecedent ∪ r.consequent,
        support ds (r.antecedent ∪ r.consequent)) ∈ L := by
  obtain ⟨I, hsub, hne, hproper, hC, hcard, hIsup, -⟩ := mem_rules_spec hm hg hr
  have hunion : r.antecedent ∪ r.consequent = I := by
    rw [hC]
    exact Finset.union_sdiff_of_subset hsub
  constructor
  · rw [hC]
    exact Finset.inter_sdiff_self _ _
  · rw [hunion]
    exact (apriori_mem hm).mpr ⟨Finset.card_pos.mp (by omega), hIsup, rfl⟩

/-- C3: Confidence — every generated rule's confidence equals
support(A ∪ C) / support(A) and lies in [0, 1]. -/
theorem rule_confidence_correct (ds : TransactionDataset) (s t : ℚ)
    (mtr : String) (L : List (Finset Item × ℚ)) (rs : List AssociationRule)
    (r : AssociationRule) (hm : apriori ds s = .ok L)
    (hg : association_rules L mtr t = .ok rs) (hr : r ∈ rs) :
    r.confidence =
        support ds (r.antecedent ∪ r.consequent) / support ds r.antecedent ∧
      0 ≤ r.confidence ∧ r.confidence ≤ 1 := by
  have hs := apriori_pos_of_ok hm
  obtain ⟨I, hsub, hne, hproper, hC, hcard, hIsup, -, hconf, -⟩ :=
    mem_rules_spec hm hg hr
  have hunion : r.antecedent ∪ r.consequent = I := by
    rw [hC]
    exact Finset.union_sdiff_of_subset hsub
  have hAsup : s ≤ support ds r.antecedent :=
    le_trans hIsup (support_mono ds hsub)
  have hApos : 0 < support ds r.antecedent := lt_of_lt_of_le hs hAsup
  have hmono : support ds I ≤ support ds r.antecedent := support_mono ds hsub
  refine ⟨by rw [hunion, hconf], ?_, ?_⟩
  · rw [hconf]
    exact div_nonneg (support_nonneg ds I) (le_of_lt hApos)
  · rw [hconf]
    exact div_le_one_of_le₀ hmono (le_of_lt hApos)

/-- C4: Monotonic threshold response — raising min_support shrinks (never
grows) the mined collection, and raising min_threshold shrinks (never
grows) the generated rule set. -/
theorem threshold_monotonicity (ds : TransactionDataset)
    (s1 s2 t1 t2 : ℚ) (mtr : String)
    (L1 L2 coll : List (Finset Item × ℚ)) (R1 R2 : List AssociationRule)
    (hs : s1 ≤ s2) (ht : t1 ≤ t2)
    (h1 : apriori ds s1 = .ok L1) (h2 : apriori ds s2 = .ok L2)
    (hr1 : association_rules coll mtr t1 = .ok R1)
    (hr2 : association_rules coll mtr t2 = .ok R2) :
    L2 ⊆ L1 ∧ R2 ⊆ R1 := by
  constructor
  · intro e he
    rcases e with ⟨I, q⟩
    have hc := (apriori_mem h2).mp he
    exact (apriori_mem h1).mpr ⟨hc.1, le_trans hs hc.2.1, hc.2.2⟩
  · intro r hr
    rw [association_rules_ok_mem hr2] at hr
    obtain ⟨c, hc, hEq, hthr⟩ := hr
    rw [association_rules_ok_mem hr1]
    exact ⟨c, hc, hEq, le_trans (WithTop.coe_le_coe.mpr ht) hthr⟩

/-- C5: Determinism / idempotence — two successful runs of the miner on the
same dataset with the same min_support produce identical collections. -/
theorem mining_idempotent (ds : TransactionDataset) (s : ℚ)
    (L1 L2 : List (Finset Item × ℚ))
    (h1 : apriori ds s = .ok L1) (h2 : apriori ds s = .ok L2) : L1 = L2 := by
  rw [h1] at h2
  exact Except.ok.inj h2

/-- C6: Threshold edge cases — min_support ≤ 0 fails with
InvalidThresholdError, while min_support > 1 succeeds with an empty
collection (distinguishable from the error). -/
theorem min_support_edge_cases (ds : TransactionDataset) (s : ℚ) :
    (s ≤ 0 → apriori ds s = .error .invalidThreshold) ∧
      (1 < s → apriori ds s = .ok []) := by
  constructor
  · intro hs
    unfold apriori
    rw [if_pos hs]
  · intro hs
    have hl1 : levelOne ds s = [] := by
      unfold levelOne
      rw [List.filter_eq_nil_iff]
      intro I hI
      rw [decide_eq_true_eq]
      intro hle
      have := support_le_one ds I
      linarith
    unfold apriori
    rw [if_neg (by linarith)]
    unfold aprioriCollection minedLevels
    rw [hl1]
    simp

/-- C7: Unknown metric — rule generation with a metric name outside the
enumerated set fails with UnknownMetricError (the error is the whole
result; no rule list is produced). -/
theorem unknown_metric_rejected (coll : List (Finset Item × ℚ))
    (metric : String) (t : ℚ) (h : metric ∉ validMetrics) :
    association_rules coll metric t = .error .unknownMetric := by
  unfold association_rules
  rw [if_neg h]

/-- C8 (counterexample): the mined collection is not ordered by descending
support within equal sizes — on the dataset [{0,1},{1}] at min_support 1/2
the two singleton entries appear with ascending supports 1/2 then 1. -/
theorem collection_order_counterexample :
    apriori [({0, 1} : Finset Item), {1}] (1/2) =
        .ok [({0}, 1/2), ({1}, 1), ({0, 1}, 1/2)] ∧
      ¬ specClaimedOrder
        [(({0} : Finset Item), (1/2 : ℚ)), ({1}, 1), ({0, 1}, 1/2)] := by
  constructor
  · decide
  · intro hord
    unfold specClaimedOrder at hord
    rw [List.chain'_cons] at hord
    have h1 := hord.1
    revert h1
    decide

/-- C8 (amended): the mined collection is ordered by ascending itemset
size; within a size level no support ordering is imposed (entries follow
candidate generation order). -/
theorem collection_ordered_by_size (ds : TransactionDataset) (s : ℚ)
    (L : List (Finset Item × ℚ)) (h : apriori ds s = .ok L) :
    L.Pairwise (fun e1 e2 => e1.1.card ≤ e2.1.card) := by
  rw [apriori_ok_eq h]
  exact aprioriCollection_pairwise_card

/-- C9: Conviction guard — every generated rule's conviction is infinite
when its confidence is 1, and equals (1 − support(C)) / (1 − confidence)
otherwise; no division by zero is ever performed. -/
theorem conviction_guarded (ds : TransactionDataset) (s t : ℚ) (mtr : String)
    (L : List (Finset Item × ℚ)) (rs : List AssociationRule)
    (r : AssociationRule) (hm : apriori ds s = .ok L)
    (hg : association_rules L mtr t = .ok rs) (hr : r ∈ rs) :
    (r.confidence = 1 → r.conviction = ⊤) ∧
      (r.confidence ≠ 1 → r.conviction =
        (((1 - support ds r.consequent) / (1 - r.confidence) : ℚ) :
          WithTop ℚ)) := by
  obtain ⟨I, -, -, -, -, -, -, -, -, -, -, hconv⟩ := mem_rules_spec hm hg hr
  constructor
  · intro h1
    rw [hconv]
    unfold convictionValue
    rw [if_pos h1]
  · intro h1
    rw [hconv]
    unfold convictionValue
    rw [if_neg h1]

/-- C10: Rows whose Date does not parse are coerced to NaT and silently
dropped by the (Member_number, Date) grouping: the built transaction list
equals the one built from only the rows with parseable dates. -/
theorem unparseable_dates_dropped (parseDate : String → Option Nat)
    (rows : List RawRow) :
    buildTransactions parseDate rows =
      buildTransactions parseDate
        (rows.filter (fun r => (parseDate r.date).isSome)) := by
  unfold buildTransactions
  rw [toDatetimeCoerce_filter, groupKeys_filter_isSome]
  congr 1
  funext k
  exact (itemsForKey_filter_isSome _ k).symm


/-- Witness for C1 at the dataset [{0,1},{1}] mined at 1/2, with the mined
pair {0,1} and its subset {1}. -/
theorem apriori_anti_monotonicity_witness :
    ((({1} : Finset Item), support [{0, 1}, {1}] {1}) ∈
        [(({0} : Finset Item), (1/2 : ℚ)), ({1}, 1), ({0, 1}, 1/2)]) ∧
      support [({0, 1} : Finset Item), {1}] {0, 1} ≤
        support [({0, 1} : Finset Item), {1}] {1} :=
  apriori_anti_monotonicity [{0, 1}, {1}] (1/2)
    [({0}, 1/2), ({1}, 1), ({0, 1}, 1/2)] {0, 1} {1} (1/2)
    (by decide) (by decide) (by decide) (by decide)

/-- Witness for C2 at the rule {1} → {0} generated from the collection
mined from [{0,1},{1}] at 1/2. -/
theorem rule_validity_witness :
    (({1} : Finset Item) ∩ {0} = ∅) ∧
      ((({1} : Finset Item) ∪ {0}),
          support [{0, 1}, {1}] (({1} : Finset Item) ∪ {0})) ∈
        [(({0} : Finset Item), (1/2 : ℚ)), ({1}, 1), ({0, 1}, 1/2)] :=
  rule_validity [{0, 1}, {1}] (1/2) (1/10) "confidence"
    [({0}, 1/2), ({1}, 1), ({0, 1}, 1/2)]
    [⟨{0}, {1}, 1/2, 1, 1, 0, ⊤⟩, ⟨{1}, {0}, 1/2, 1/2, 1, 0, (1 : ℚ)⟩]
    ⟨{1}, {0}, 1/2, 1/2, 1, 0, (1 : ℚ)⟩
    (by decide) (by decide) (by decide)

/-- Witness for C3 at the rule {1} → {0}: its confidence 1/2 equals
support({0,1}) / support({1}) and lies in [0,1]. -/
theorem rule_confidence_correct_witness :
    ((1/2 : ℚ) = support [{0, 1}, {1}] (({1} : Finset Item) ∪ {0}) /
        support [{0, 1}, {1}] ({1} : Finset Item)) ∧
      (0 : ℚ) ≤ 1/2 ∧ (1/2 : ℚ) ≤ 1 :=
  rule_confidence_correct [{0, 1}, {1}] (1/2) (1/10) "confidence"
    [({0}, 1/2), ({1}, 1), ({0, 1}, 1/2)]
    [⟨{0}, {1}, 1/2, 1, 1, 0, ⊤⟩, ⟨{1}, {0}, 1/2, 1/2, 1, 0, (1 : ℚ)⟩]
    ⟨{1}, {0}, 1/2, 1/2, 1, 0, (1 : ℚ)⟩
    (by decide) (by decide) (by decide)

/-- Witness for C4: raising min_support from 1/2 to 2/3 shrinks the mined
collection, and raising min_threshold from 1/10 to 3/4 shrinks the rule
set. -/
theorem threshold_monotonicity_witness :
    ([(({1} : Finset Item), (1 : ℚ))] ⊆
        [(({0} : Finset Item), (1/2 : ℚ)), ({1}, 1), ({0, 1}, 1/2)]) ∧
      ([(⟨{0}, {1}, 1/2, 1, 1, 0, ⊤⟩ : AssociationRule)] ⊆
        [⟨{0}, {1}, 1/2, 1, 1, 0, ⊤⟩,
          ⟨{1}, {0}, 1/2, 1/2, 1, 0, (1 : ℚ)⟩]) :=
  threshold_monotonicity [{0, 1}, {1}] (1/2) (2/3) (1/10) (3/4) "confidence"
    [({0}, 1/2), ({1}, 1), ({0, 1}, 1/2)] [({1}, 1)]
    [({0}, 1/2), ({1}, 1), ({0, 1}, 1/2)]
    [⟨{0}, {1}, 1/2, 1, 1, 0, ⊤⟩, ⟨{1}, {0}, 1/2, 1/2, 1, 0, (1 : ℚ)⟩]
    [⟨{0}, {1}, 1/2, 1, 1, 0, ⊤⟩]
    (by norm_num) (by norm_num) (by decide) (by decide) (by decide) (by decide)

/-- Witness for C5: two runs at the same inputs produce the same
collection. -/
theorem mining_idempotent_witness :
    ([(({0} : Finset Item), (1/2 : ℚ)), ({1}, 1), ({0, 1}, 1/2)] :
        List (Finset Item × ℚ)) =
      [(({0} : Finset Item), (1/2 : ℚ)), ({1}, 1), ({0, 1}, 1/2)] :=
  mining_idempotent [{0, 1}, {1}] (1/2)
    [({0}, 1/2), ({1}, 1), ({0, 1}, 1/2)]
    [({0}, 1/2), ({1}, 1), ({0, 1}, 1/2)] (by decide) (by decide)

/-- Witness for C6: min_support −1 raises InvalidThresholdError while
min_support 2 returns an empty collection. -/
theorem min_support_edge_cases_witness :
    apriori [({0} : Finset Item)] (-1) = .error .invalidThreshold ∧
      apriori [({0} : Finset Item)] 2 = .ok [] :=
  ⟨(min_support_edge_cases [({0} : Finset Item)] (-1)).1 (by norm_num),
   (min_support_edge_cases [({0} : Finset Item)] 2).2 (by norm_num)⟩

/-- Witness for C7: the unrecognized metric name "bogus" is rejected with
UnknownMetricError. -/
theorem unknown_metric_rejected_witness :
    association_rules [] "bogus" 0 = .error .unknownMetric :=
  unknown_metric_rejected [] "bogus" 0 (by decide)

/-- Witness for the amended C8: the collection mined from [{0,1},{1}] at
1/2 has pairwise non-decreasing itemset sizes. -/
theorem collection_ordered_by_size_witness :
    ([(({0} : Finset Item), (1/2 : ℚ)), ({1}, 1),
        ({0, 1}, 1/2)]).Pairwise (fun e1 e2 => e1.1.card ≤ e2.1.card) :=
  collection_ordered_by_size [{0, 1}, {1}] (1/2)
    [({0}, 1/2), ({1}, 1), ({0, 1}, 1/2)] (by decide)

/-- Witness for C9 at the rule {0} → {1}, whose confidence is 1 and whose
conviction is the guarded infinite value. -/
theorem conviction_guarded_witness :
    (((1 : ℚ) = 1 → (⊤ : WithTop ℚ) = ⊤) ∧
      ((1 : ℚ) ≠ 1 → (⊤ : WithTop ℚ) =
        (((1 - support [{0, 1}, {1}] ({1} : Finset Item)) / (1 - (1 : ℚ)) :
          ℚ) : WithTop ℚ))) :=
  conviction_guarded [{0, 1}, {1}] (1/2) (1/10) "confidence"
    [({0}, 1/2), ({1}, 1), ({0, 1}, 1/2)]
    [⟨{0}, {1}, 1/2, 1, 1, 0, ⊤⟩, ⟨{1}, {0}, 1/2, 1/2, 1, 0, (1 : ℚ)⟩]
    ⟨{0}, {1}, 1/2, 1, 1, 0, ⊤⟩ (by decide) (by decide) (by decide)

end Claims
